import Mathlib

/-!
A shallow embedding of the untrusted pixel-stream protocol of
`dangerzone/isolation_provider/qubes.py` (the Qubes isolation provider),
together with theorems about its decoding loop, error handling, progress
reporting, timeout budgeting and dev-mode sidecar framing.

The worker's output stream is modelled as a finite list of byte values
(`List Nat`, each `< 256` for real streams); reading consumes a prefix
irreversibly.  A short read happens exactly when the stream holds fewer
bytes than requested, matching a worker that died or a timeout expiring
before enough bytes arrived.  Timing is modelled separately by an
explicit elapsed-time fold (`readsWithinBudget`).
-/

namespace Dangerzone

/-- Modelled from the spec: `nonblocking_read(f, size, timeout)` (in
`dangerzone.util`, outside the embedded file) accumulates at most `size`
bytes from a non-blocking stream within `timeout`; it returns the bytes
that arrived, possibly fewer than `size`.  In the stream-as-list model the
available bytes are the list, so a read takes the first `size` of them and
leaves the rest.  The timeout affects only timing, which is modelled
separately. -/
def nonblocking_read (s : List Nat) (size : Nat) : List Nat × List Nat :=
  (s.take size, s.drop size)

/-- The short-read failure carrying expected and actual counts: the
`ValueError("Did not receive exact
number of bytes")` raised by `read_bytes`. -/
inductive ReadError where
  | shortRead (expected got : Nat)
  deriving DecidableEq, Repr

/-- Embeds `read_bytes(f, size, timeout, exact)`: reads via `nonblocking_read` and,
when `exact` is set, fails unless exactly `size` bytes arrived.  On success
returns the buffer and the remaining stream. -/
def read_bytes (s : List Nat) (size : Nat) (exact : Bool) :
    Except ReadError (List Nat × List Nat) :=
  if exact && (nonblocking_read s size).1.length != size then
    .error (.shortRead size (nonblocking_read s size).1.length)
  else
    .ok (nonblocking_read s size)

/-- Embeds `int.from_bytes(bs, signed=False)` with the default big-endian byte
order: most significant byte first. -/
def beBytesToNat (bs : List Nat) : Nat :=
  bs.foldl (fun acc b => acc * 256 + b) 0

/-- Embeds `read_int(f, timeout)`: reads 2 bytes exactly and decodes them as an
unsigned big-endian integer. -/
def read_int (s : List Nat) : Except ReadError (Nat × List Nat) :=
  match read_bytes s 2 true with
  | .error e => .error e
  | .ok (buf, rest) => .ok (beBytesToNat buf, rest)

/-- A decoded page as persisted by the wrapper code: the two dimension
files and the raw `page-<i>.rgb` buffer, written verbatim. -/
structure Page where
  width : Nat
  height : Nat
  pixels : List Nat
  deriving DecidableEq, Repr

/-- One `print_progress_trusted(document, error, text, percentage)` call. -/
structure ProgressCall where
  error : Bool
  text : String
  percentage : ℚ
  deriving DecidableEq, Repr

/-- Modelled from the spec: `exception_from_error_code` (in
`dangerzone.conversion.errors`, outside the embedded file) maps the
worker's numeric exit code to an enumerated human-meaningful cause, with a
generic fallback for unmapped codes; exit code 137 (killed) maps to a
resource-limited diagnosis. -/
inductive ExitDiagnosis where
  | resourceLimited (code : Int)
  | unknown (code : Int)
  deriving DecidableEq, Repr

/-- Modelled from the spec: the exit-code-to-cause mapping itself. -/
def exception_from_error_code (code : Int) : ExitDiagnosis :=
  if code = 137 then .resourceLimited code else .unknown code

/-- How one `_convert` call ends: a normal boolean return, the
reconstructed worker diagnosis raised at the page-count boundary, or a
`ShortRead` fault escaping from a mid-loop read. -/
inductive ConvResult where
  | ok (b : Bool)
  | diagnosis (d : ExitDiagnosis)
  | readFault (e : ReadError)
  deriving DecidableEq, Repr

/-- Everything observable about one `_convert` call: its result, the pages
persisted to staging (in order), the progress calls issued, and how many
bytes were consumed from the worker's output stream. -/
structure ConvOutcome where
  result : ConvResult
  pages : List Page
  progress : List ProgressCall
  consumed : Nat
  deriving DecidableEq, Repr

/-- The text of the per-page progress message. -/
def pageText (page n : Nat) : String :=
  "Converting page " ++ toString page ++ "/" ++ toString n ++ " to pixels"

/-- Result of the per-page `for page in range(1, n_pages + 1)` loop:
pages persisted so far, progress calls made so far, the percentage
accumulator, the unread remainder of the stream, and the `ShortRead`
fault if one of the three reads of the current page failed. -/
structure LoopOut where
  pages : List Page
  progress : List ProgressCall
  perc : ℚ
  rest : List Nat
  err : Option ReadError
  deriving DecidableEq, Repr

/-- The per-page loop of `_convert`, by recursion on the number of pages
still to read.  With `k + 1` pages remaining out of `n`, the current page
index is `n - k`.  Each iteration reads `width`, `height` (two big-endian
`uint16`s) and then exactly `width * height * 3` pixel bytes; on success it
persists the page, bumps the accumulator by `ppp` and reports progress. -/
def convertLoop (n : Nat) (ppp : ℚ) : Nat → ℚ → List Nat → LoopOut
  | 0, perc, s => ⟨[], [], perc, s, none⟩
  | k + 1, perc, s =>
    match read_int s with
    | .error e => ⟨[], [], perc, s, some e⟩
    | .ok (width, s1) =>
      match read_int s1 with
      | .error e => ⟨[], [], perc, s1, some e⟩
      | .ok (height, s2) =>
        match read_bytes s2 (width * height * 3) true with
        | .error e => ⟨[], [], perc, s2, some e⟩
        | .ok (pixels, s3) =>
          let page : Page := ⟨width, height, pixels⟩
          let perc1 := perc + ppp
          let call : ProgressCall := ⟨false, pageText (n - k) n, perc1⟩
          let out := convertLoop n ppp k perc1 s3
          ⟨page :: out.pages, call :: out.progress, out.perc, out.rest, out.err⟩

/-- Embeds `Qubes._convert(document, ocr_lang)`, restricted to what it does with
the worker's output stream.  `stream` is the full byte sequence the worker
ever writes to its stdout side; `exitCode` is what `p.wait()` would return
(consulted only when the initial page-count read fails).  Steps mirrored:
read `n_pages`; on `ValueError` re-raise the diagnosis reconstructed from
the exit code; on `n_pages == 0` return a bare `False`; otherwise set the
per-page increment from the OCR flag, run the page loop, and on success
report the stream-consumed and final (100.0) progress messages and return
`True`. -/
def _convert (stream : List Nat) (ocr_lang : Option String) (exitCode : Int) :
    ConvOutcome :=
  match read_int stream with
  | .error _ =>
    { result := .diagnosis (exception_from_error_code exitCode)
      pages := []
      progress := []
      consumed := stream.length }
  | .ok (n_pages, s1) =>
    if n_pages = 0 then
      { result := .ok false, pages := [], progress := [], consumed := 2 }
    else
      let percentage_per_page : ℚ :=
        if ocr_lang.isSome then 50 / n_pages else 100 / n_pages
      let out := convertLoop n_pages percentage_per_page n_pages 0 s1
      match out.err with
      | some e =>
        { result := .readFault e
          pages := out.pages
          progress := out.progress
          consumed := stream.length - out.rest.length }
      | none =>
        { result := .ok true
          pages := out.pages
          progress := out.progress ++
            [⟨false, "Converted document to pixels", out.perc⟩,
             ⟨false, "Safe PDF created", 100⟩]
          consumed := stream.length - out.rest.length }

/-- Big-endian encoding of a `uint16` value (`v < 65536`). -/
def be2 (v : Nat) : List Nat :=
  [v / 256, v % 256]

/-- The wire encoding of one page record: `uint16 width`, `uint16 height`,
then the raw pixel buffer. -/
def encodePage (p : Page) : List Nat :=
  be2 p.width ++ be2 p.height ++ p.pixels

/-- The wire encoding of a whole well-formed worker output: the `uint16`
page count followed by each page record in order. -/
def encodeStream (n : Nat) (ps : List Page) : List Nat :=
  be2 n ++ (ps.map encodePage).flatten

/-- A page record is well formed when its dimensions fit in `uint16` and
its buffer holds exactly `width * height * 3` bytes. -/
def WellFormedPage (p : Page) : Prop :=
  p.width < 65536 ∧ p.height < 65536 ∧ p.pixels.length = p.width * p.height * 3

/-- The progress calls the loop makes for a list of pages, starting at page
index `page` with accumulator `perc`. -/
def pageCalls (n : Nat) (ppp : ℚ) : Nat → ℚ → List Page → List ProgressCall
  | _, _, [] => []
  | page, perc, _ :: ps =>
    ⟨false, pageText page n, perc + ppp⟩ :: pageCalls n ppp (page + 1) (perc + ppp) ps

section ReadLemmas

theorem read_bytes_ok_length {s : List Nat} {size : Nat} {buf rest : List Nat}
    (h : read_bytes s size true = .ok (buf, rest)) : buf.length = size := by
  by_cases hc : (nonblocking_read s size).1.length = size
  · unfold read_bytes at h
    rw [if_neg (by simp [hc])] at h
    injection h with h2
    have hbuf : (nonblocking_read s size).1 = buf := by rw [h2]
    rw [← hbuf]
    exact hc
  · unfold read_bytes at h
    rw [if_pos (by simp [hc])] at h
    exact absurd h (by simp)

theorem read_bytes_exact_ok (buf rest : List Nat) :
    read_bytes (buf ++ rest) buf.length true = .ok (buf, rest) := by
  simp [read_bytes, nonblocking_read]

theorem read_bytes_short {s : List Nat} {size : Nat} (h : s.length < size) :
    read_bytes s size true = .error (.shortRead size s.length) := by
  have htake : (s.take size).length = s.length := by
    simp [Nat.le_of_lt h]
  simp only [read_bytes, nonblocking_read, htake]
  have : s.length ≠ size := Nat.ne_of_lt h
  simp [this]

theorem beBytesToNat_be2 {v : Nat} (_h : v < 65536) : beBytesToNat (be2 v) = v := by
  simp only [beBytesToNat, be2, List.foldl]
  omega

theorem read_int_be2 {v : Nat} (h : v < 65536) (rest : List Nat) :
    read_int (be2 v ++ rest) = .ok (v, rest) := by
  have hlen : (be2 v).length = 2 := rfl
  have := read_bytes_exact_ok (be2 v) rest
  rw [hlen] at this
  simp [read_int, this, beBytesToNat_be2 h]

theorem read_int_short {s : List Nat} (h : s.length < 2) :
    read_int s = .error (.shortRead 2 s.length) := by
  simp [read_int, read_bytes_short h]

end ReadLemmas

section LoopLemmas

/-- On a well-formed encoding of `ps`, the loop with fuel `ps.length`
decodes exactly `ps` in order, reports one progress call per page, adds
`ps.length` increments to the accumulator, and leaves the trailing bytes
unread. -/
theorem convertLoop_encoded (n : Nat) (ppp : ℚ) (ps : List Page)
    (hn : ps.length ≤ n) (hv : ∀ p ∈ ps, WellFormedPage p) :
    ∀ (perc : ℚ) (trailing : List Nat),
      convertLoop n ppp ps.length perc ((ps.map encodePage).flatten ++ trailing) =
        ⟨ps, pageCalls n ppp (n - ps.length + 1) perc ps,
         perc + ps.length * ppp, trailing, none⟩ := by
  induction ps with
  | nil =>
    intro perc trailing
    simp [convertLoop, pageCalls]
  | cons p ps ih =>
    intro perc trailing
    obtain ⟨hw, hh, hlen⟩ := hv p (by simp)
    have hps : ∀ q ∈ ps, WellFormedPage q := fun q hq => hv q (by simp [hq])
    have hpix :
        read_bytes (p.pixels ++ ((ps.map encodePage).flatten ++ trailing))
          (p.width * p.height * 3) true =
          .ok (p.pixels, (ps.map encodePage).flatten ++ trailing) := by
      have h2 := read_bytes_exact_ok p.pixels ((ps.map encodePage).flatten ++ trailing)
      rwa [hlen] at h2
    have hstream :
        ((p :: ps).map encodePage).flatten ++ trailing =
          be2 p.width ++ (be2 p.height ++ (p.pixels ++
            ((ps.map encodePage).flatten ++ trailing))) := by
      simp [encodePage, List.append_assoc]
    have hn' : ps.length + 1 ≤ n := by simpa using hn
    have hrec := ih (Nat.le_of_succ_le hn) hps (perc + ppp) trailing
    have hidx : n - (ps.length + 1) + 1 = n - ps.length := by omega
    show convertLoop n ppp (ps.length + 1) perc (((p :: ps).map encodePage).flatten ++ trailing) = _
    rw [hstream]
    simp only [convertLoop, read_int_be2 hw, read_int_be2 hh, hpix, hrec,
      List.length_cons, hidx, pageCalls, LoopOut.mk.injEq]
    repeat' apply And.intro
    all_goals first
      | trivial
      | (push_cast; ring)

/-- Every page the loop persists has a fully received buffer: exactly
`width * height * 3` bytes for the dimensions persisted alongside it. -/
theorem convertLoop_pages_exact (n : Nat) (ppp : ℚ) :
    ∀ (k : Nat) (perc : ℚ) (s : List Nat) (p : Page),
      p ∈ (convertLoop n ppp k perc s).pages →
      p.pixels.length = p.width * p.height * 3 := by
  intro k
  induction k with
  | zero =>
    intro perc s p hp
    simp [convertLoop] at hp
  | succ k ih =>
    intro perc s p hp
    cases h1 : read_int s with
    | error e => simp [convertLoop, h1] at hp
    | ok v =>
      obtain ⟨width, s1⟩ := v
      cases h2 : read_int s1 with
      | error e => simp [convertLoop, h1, h2] at hp
      | ok v2 =>
        obtain ⟨height, s2⟩ := v2
        cases h3 : read_bytes s2 (width * height * 3) true with
        | error e => simp [convertLoop, h1, h2, h3] at hp
        | ok v3 =>
          obtain ⟨pixels, s3⟩ := v3
          simp only [convertLoop, h1, h2, h3, List.mem_cons] at hp
          rcases hp with hp | hp
          · subst hp
            exact read_bytes_ok_length h3
          · exact ih _ _ p hp

/-- The accumulator consed onto the loop's reported percentages is a
non-decreasing sequence. -/
theorem convertLoop_chain (n : Nat) (ppp : ℚ) (hppp : 0 ≤ ppp) :
    ∀ (k : Nat) (perc : ℚ) (s : List Nat),
      List.Chain' (· ≤ ·)
        (perc :: (convertLoop n ppp k perc s).progress.map ProgressCall.percentage) := by
  intro k
  induction k with
  | zero =>
    intro perc s
    simp [convertLoop]
  | succ k ih =>
    intro perc s
    cases h1 : read_int s with
    | error e => simp [convertLoop, h1]
    | ok v =>
      obtain ⟨width, s1⟩ := v
      cases h2 : read_int s1 with
      | error e => simp [convertLoop, h1, h2]
      | ok v2 =>
        obtain ⟨height, s2⟩ := v2
        cases h3 : read_bytes s2 (width * height * 3) true with
        | error e => simp [convertLoop, h1, h2, h3]
        | ok v3 =>
          obtain ⟨pixels, s3⟩ := v3
          simp only [convertLoop, h1, h2, h3, List.map_cons]
          exact List.Chain'.cons (by linarith) (ih (perc + ppp) s3)

/-- When the loop finishes without a fault it has added exactly `k`
increments to the accumulator, and the last reported percentage (or the
starting accumulator, if no page was reported) is that final value. -/
theorem convertLoop_success_perc (n : Nat) (ppp : ℚ) :
    ∀ (k : Nat) (perc : ℚ) (s : List Nat),
      (convertLoop n ppp k perc s).err = none →
      (convertLoop n ppp k perc s).perc = perc + k * ppp ∧
      (perc :: (convertLoop n ppp k perc s).progress.map ProgressCall.percentage).getLast?
        = some (perc + k * ppp) := by
  intro k
  induction k with
  | zero =>
    intro perc s _
    simp [convertLoop]
  | succ k ih =>
    intro perc s herr
    cases h1 : read_int s with
    | error e => simp [convertLoop, h1] at herr
    | ok v =>
      obtain ⟨width, s1⟩ := v
      cases h2 : read_int s1 with
      | error e => simp [convertLoop, h1, h2] at herr
      | ok v2 =>
        obtain ⟨height, s2⟩ := v2
        cases h3 : read_bytes s2 (width * height * 3) true with
        | error e => simp [convertLoop, h1, h2, h3] at herr
        | ok v3 =>
          obtain ⟨pixels, s3⟩ := v3
          simp only [convertLoop, h1, h2, h3] at herr ⊢
          obtain ⟨hperc, hlast⟩ := ih (perc + ppp) s3 herr
          have harith : perc + ppp + (k : ℚ) * ppp = perc + ((k : ℚ) + 1) * ppp := by ring
          constructor
          · rw [hperc]
            push_cast
            ring
          · rw [List.map_cons, List.getLast?_cons_cons, hlast, harith]
            push_cast
            ring_nf

end LoopLemmas

section ConvertLemmas

theorem encodePage_length (p : Page) (hp : WellFormedPage p) :
    (encodePage p).length = 4 + p.width * p.height * 3 := by
  obtain ⟨-, -, hlen⟩ := hp
  simp [encodePage, be2, hlen]
  ring

theorem encode_flatten_length (ps : List Page) (hv : ∀ p ∈ ps, WellFormedPage p) :
    ((ps.map encodePage).flatten).length
      = 4 * ps.length + (ps.map fun p => p.width * p.height * 3).sum := by
  induction ps with
  | nil => simp
  | cons p ps ih =>
    have hp := encodePage_length p (hv p (by simp))
    have hrest := ih (fun q hq => hv q (by simp [hq]))
    simp only [List.map_cons, List.flatten_cons, List.length_append, hp, hrest,
      List.length_cons, List.sum_cons]
    ring

/-- On a well-formed worker output for `ps` (page count, then each record),
`_convert` succeeds: it returns `True`, persists exactly `ps` in order,
reports one progress call per page followed by the stream-consumed and
final messages, and consumes exactly the protocol bytes, leaving any
trailing bytes unread. -/
theorem convert_encoded (ps : List Page) (trailing : List Nat)
    (lang : Option String) (ec : Int)
    (h1 : 1 ≤ ps.length) (h2 : ps.length < 65536)
    (hv : ∀ p ∈ ps, WellFormedPage p) :
    _convert (encodeStream ps.length ps ++ trailing) lang ec =
      { result := .ok true
        pages := ps
        progress :=
          pageCalls ps.length
              (if lang.isSome then 50 / (ps.length : ℚ) else 100 / (ps.length : ℚ)) 1 0 ps ++
            [⟨false, "Converted document to pixels",
              (ps.length : ℚ) *
                (if lang.isSome then 50 / (ps.length : ℚ) else 100 / (ps.length : ℚ))⟩,
             ⟨false, "Safe PDF created", 100⟩]
        consumed := 2 + 4 * ps.length + (ps.map fun p => p.width * p.height * 3).sum } := by
  have hstream : encodeStream ps.length ps ++ trailing
      = be2 ps.length ++ ((ps.map encodePage).flatten ++ trailing) := by
    simp [encodeStream, List.append_assoc]
  have hn0 : ps.length ≠ 0 := by omega
  have hloop := convertLoop_encoded ps.length
    (if lang.isSome then 50 / (ps.length : ℚ) else 100 / (ps.length : ℚ))
    ps le_rfl hv 0 trailing
  have hidx : ps.length - ps.length + 1 = 1 := by omega
  rw [hidx] at hloop
  simp only [_convert, hstream, read_int_be2 h2, if_neg hn0, hloop, zero_add,
    ConvOutcome.mk.injEq]
  refine ⟨trivial, trivial, trivial, ?_⟩
  have hflat := encode_flatten_length ps hv
  simp only [List.length_append, List.length_cons, be2, List.length_nil, hflat]
  omega

end ConvertLemmas

section TimeBudget

/-- The fixed worker-startup allowance `STARTUP_TIME_SECONDS = 5 * 60`
added to the initial timeout. -/
def STARTUP_TIME_SECONDS : ℚ := 5 * 60

/-- Modelled from the spec: `calculate_timeout(size, pages)` (in
`dangerzone.conversion.common`, outside the embedded file) computes a
ceiling as a monotonically increasing function of input size and, once
known, page count.  A concrete affine instance; the budget theorems do not
depend on the coefficients. -/
def calculate_timeout (size pages : ℚ) : ℚ :=
  60 + 30 * size + 30 * pages

/-- Modelled from the spec: `Stopwatch.remaining` (in `dangerzone.util`,
outside the embedded file) returns the time left of the budget, never
negative: a spent budget reads as an immediate expiry, not a negative
timeout. -/
def stopwatch_remaining (budget elapsed : ℚ) : ℚ :=
  max 0 (budget - elapsed)

/-- Modelled from the spec: one poll-loop read blocks for a non-negative
duration of at most its timeout parameter plus a bounded poll-interval
tolerance `tol`, and each loop read's timeout is a fresh snapshot of
`stopwatch_remaining` taken at the elapsed time of the call.  This
predicate says a duration trace `ds` is consistent with that contract
starting from accumulated elapsed time `elapsed`. -/
def ReadsWithinBudget (budget tol : ℚ) : ℚ → List ℚ → Prop
  | _, [] => True
  | elapsed, d :: ds =>
    0 ≤ d ∧ d ≤ stopwatch_remaining budget elapsed + tol ∧
      ReadsWithinBudget budget tol (elapsed + d) ds

theorem readsWithinBudget_sum (budget tol : ℚ) (htol : 0 ≤ tol) :
    ∀ (ds : List ℚ) (elapsed : ℚ), ReadsWithinBudget budget tol elapsed ds →
      ds.sum ≤ stopwatch_remaining budget elapsed + ds.length * tol := by
  intro ds
  induction ds with
  | nil =>
    intro elapsed _
    simp [stopwatch_remaining, le_max_iff]
  | cons d ds ih =>
    intro elapsed hr
    obtain ⟨hd0, hdle, hrest⟩ := hr
    have hsum := ih (elapsed + d) hrest
    have hkey : d + stopwatch_remaining budget (elapsed + d)
        ≤ stopwatch_remaining budget elapsed + tol := by
      rcases le_total (budget - (elapsed + d)) 0 with hc | hc
      · rw [stopwatch_remaining, max_eq_left hc]
        simpa using hdle
      · rw [stopwatch_remaining, max_eq_right hc]
        have : budget - elapsed ≤ stopwatch_remaining budget elapsed :=
          le_max_right 0 (budget - elapsed)
        linarith
    simp only [List.sum_cons, List.length_cons]
    push_cast
    linarith

end TimeBudget

section Sidecar

/-- Embeds `len(...).to_bytes(4)`: the 4-byte unsigned big-endian encoding Python
produces for a value below `2 ^ 32`. -/
def to_bytes4 (value : Nat) : List Nat :=
  [value / 2 ^ 24 % 256, value / 2 ^ 16 % 256, value / 2 ^ 8 % 256, value % 256]

/-- Embeds `teleport_dz_module(wpipe)`: what the dev-mode sidecar writes to the
worker's input stream, as a function of the zipped module blob it builds:
the 4-byte length prefix, then the blob itself. -/
def teleport_dz_module (blob : List Nat) : List Nat :=
  to_bytes4 blob.length ++ blob

/-- The full dev-mode input stream: first the sidecar (length prefix and
blob), then the document bytes, exactly in the order `_convert` writes
them to `p.stdin`. -/
def dev_input_stream (blob doc : List Nat) : List Nat :=
  teleport_dz_module blob ++ doc

theorem beBytesToNat_to_bytes4 {v : Nat} (h : v < 2 ^ 32) :
    beBytesToNat (to_bytes4 v) = v := by
  simp only [beBytesToNat, to_bytes4, List.foldl]
  omega

end Sidecar

/-- C1: for every page count `n ≥ 1` and every sequence of `n` well-formed
page records, a successful decode in `_convert` consumes exactly
`sum(width_i * height_i * 3) + 2 + 4 * n` bytes from the worker's output
stream (2 for the page count, 4 per page header, `width * height * 3` per
pixel buffer) and persists exactly the `n` pages in stream order. -/
theorem C1_decode_consumes_and_persists (ps : List Page) (trailing : List Nat)
    (lang : Option String) (ec : Int)
    (h1 : 1 ≤ ps.length) (h2 : ps.length < 65536)
    (hv : ∀ p ∈ ps, WellFormedPage p) :
    (_convert (encodeStream ps.length ps ++ trailing) lang ec).result = .ok true ∧
    (_convert (encodeStream ps.length ps ++ trailing) lang ec).pages = ps ∧
    (_convert (encodeStream ps.length ps ++ trailing) lang ec).consumed
      = (ps.map fun p => p.width * p.height * 3).sum + 2 + 4 * ps.length := by
  rw [convert_encoded ps trailing lang ec h1 h2 hv]
  refine ⟨rfl, rfl, ?_⟩
  show 2 + 4 * ps.length + _ = _
  omega

theorem C1_witness :
    (_convert (encodeStream 1 [⟨1, 2, [1, 2, 3, 4, 5, 6]⟩] ++ [9, 9]) none 0).result
      = .ok true ∧
    (_convert (encodeStream 1 [⟨1, 2, [1, 2, 3, 4, 5, 6]⟩] ++ [9, 9]) none 0).pages
      = [⟨1, 2, [1, 2, 3, 4, 5, 6]⟩] ∧
    (_convert (encodeStream 1 [⟨1, 2, [1, 2, 3, 4, 5, 6]⟩] ++ [9, 9]) none 0).consumed
      = 12 := by
  have h := C1_decode_consumes_and_persists [⟨1, 2, [1, 2, 3, 4, 5, 6]⟩] [9, 9] none 0
    (by decide) (by decide) (by simp [WellFormedPage])
  simpa using h

/-- C2 (divergence evidence): when the decoded page count is `0`,
`_convert` returns the bare boolean `False` — silently, with no progress
call and no distinguishable error value — rather than raising the named
`EmptyResult` failure the spec requires.  The code's own comment
(`FIXME: Fail loudly in that case`) flags this as a defect. -/
theorem C2_zero_pages_bare_false :
    _convert [0, 0] none 0 =
      { result := .ok false, pages := [], progress := [], consumed := 2 } := by
  simp [_convert, read_int, read_bytes, nonblocking_read, beBytesToNat]

/-- C3: whenever reading the initial 2-byte page count short-reads, the
session waits for the worker's exit status and raises the structured
diagnosis `exception_from_error_code(exit_code)`; the short-read fault
itself never escapes from the page-count read. -/
theorem C3_short_pagecount_diagnosed (stream : List Nat) (lang : Option String)
    (ec : Int) (h : stream.length < 2) :
    (_convert stream lang ec).result = .diagnosis (exception_from_error_code ec) := by
  simp [_convert, read_int_short h]

theorem C3_witness :
    (_convert [7] none 137).result = .diagnosis (.resourceLimited 137) := by
  have h := C3_short_pagecount_diagnosed [7] none 137 (by decide)
  rw [h]
  rfl

/-- C5: PageSink never persists a partially received pixel buffer: on any
stream — including one on which the session fails — every page `_convert`
persists has a buffer of byte length exactly `width * height * 3` for the
dimensions persisted alongside it. -/
theorem C5_pagesink_exact (stream : List Nat) (lang : Option String) (ec : Int)
    (p : Page) (hp : p ∈ (_convert stream lang ec).pages) :
    p.pixels.length = p.width * p.height * 3 := by
  cases h1 : read_int stream with
  | error e => simp [_convert, h1] at hp
  | ok v =>
    obtain ⟨n, s1⟩ := v
    by_cases hn : n = 0
    · simp [_convert, h1, hn] at hp
    · simp only [_convert, h1, if_neg hn] at hp
      cases herr :
          (convertLoop n (if lang.isSome then 50 / (n : ℚ) else 100 / (n : ℚ)) n 0 s1).err with
      | none =>
        simp only [herr] at hp
        exact convertLoop_pages_exact n _ n 0 s1 p hp
      | some e =>
        simp only [herr] at hp
        exact convertLoop_pages_exact n _ n 0 s1 p hp

theorem pageCalls_map (n : Nat) (ppp : ℚ) :
    ∀ (ps : List Page) (page : Nat) (perc : ℚ),
      (pageCalls n ppp page perc ps).map ProgressCall.percentage
        = (List.range ps.length).map fun i : Nat => perc + ((i : ℚ) + 1) * ppp := by
  intro ps
  induction ps with
  | nil =>
    intro page perc
    simp [pageCalls]
  | cons p ps ih =>
    intro page perc
    simp only [pageCalls, List.map_cons, List.length_cons, List.range_succ_eq_map,
      List.map_map, List.cons.injEq]
    constructor
    · push_cast
      ring
    · rw [ih]
      apply List.map_congr_left
      intro i _
      simp only [Function.comp_apply]
      push_cast
      ring

/-- C7: for every page count `n ≥ 1`, the per-page progress increment is
`50 / n` percent when an OCR language was supplied (post-processing will
consume the remaining half) and `100 / n` percent otherwise, and the i-th
decoded page advances the accumulated percentage to exactly `i` times this
increment. -/
theorem C7_per_page_increment (ps : List Page) (trailing : List Nat)
    (lang : Option String) (ec : Int)
    (h1 : 1 ≤ ps.length) (h2 : ps.length < 65536)
    (hv : ∀ p ∈ ps, WellFormedPage p) :
    (_convert (encodeStream ps.length ps ++ trailing) lang ec).progress.map
        ProgressCall.percentage
      = ((List.range ps.length).map fun i : Nat =>
            ((i : ℚ) + 1) *
              (if lang.isSome then 50 / (ps.length : ℚ) else 100 / (ps.length : ℚ)))
          ++ [(ps.length : ℚ) *
                (if lang.isSome then 50 / (ps.length : ℚ) else 100 / (ps.length : ℚ)),
              100] := by
  rw [convert_encoded ps trailing lang ec h1 h2 hv]
  simp only [List.map_append, List.map_cons, List.map_nil, pageCalls_map, zero_add]

theorem C7_witness :
    (_convert (encodeStream 1 [⟨1, 1, [5, 6, 7]⟩] ++ []) (some "eng") 0).progress.map
        ProgressCall.percentage = [50, 50, 100] := by
  have h := C7_per_page_increment [⟨1, 1, [5, 6, 7]⟩] [] (some "eng") 0
    (by decide) (by decide) (by simp [WellFormedPage])
  have h2 : encodeStream 1 [(⟨1, 1, [5, 6, 7]⟩ : Page)] ++ []
      = encodeStream [(⟨1, 1, [5, 6, 7]⟩ : Page)].length [⟨1, 1, [5, 6, 7]⟩] ++ [] := rfl
  rw [h2, h]
  norm_num [List.range_succ]

/-- C10: a page whose decoded header has zero area (`width * height = 0`)
is accepted without any validation: the decoder reads a zero-length pixel
buffer, persists the page with an empty buffer and the zero dimension
values, advances progress, and continues with the next page. -/
theorem C10_zero_area_page_accepted (w h : Nat) (trailing : List Nat)
    (lang : Option String) (ec : Int)
    (hw : w < 65536) (hh : h < 65536) (hzero : w * h = 0) :
    (_convert (encodeStream 2 [⟨w, h, []⟩, ⟨1, 1, [8, 8, 8]⟩] ++ trailing) lang ec).result
      = .ok true ∧
    (_convert (encodeStream 2 [⟨w, h, []⟩, ⟨1, 1, [8, 8, 8]⟩] ++ trailing) lang ec).pages
      = [⟨w, h, []⟩, ⟨1, 1, [8, 8, 8]⟩] ∧
    (_convert (encodeStream 2 [⟨w, h, []⟩, ⟨1, 1, [8, 8, 8]⟩] ++ trailing)
        lang ec).progress.length = 4 := by
  have hv : ∀ p ∈ [(⟨w, h, []⟩ : Page), ⟨1, 1, [8, 8, 8]⟩], WellFormedPage p := by
    intro p hp
    simp only [List.mem_cons, List.not_mem_nil, or_false] at hp
    rcases hp with rfl | rfl
    · exact ⟨hw, hh, by simp [hzero]⟩
    · exact ⟨by norm_num, by norm_num, by norm_num⟩
  have hc := convert_encoded [⟨w, h, []⟩, ⟨1, 1, [8, 8, 8]⟩] trailing lang ec
    (by simp) (by simp) hv
  refine ⟨?_, ?_, ?_⟩
  · exact congrArg ConvOutcome.result hc
  · exact congrArg ConvOutcome.pages hc
  · have hlen := congrArg (fun o => o.progress.length) hc
    simpa [pageCalls] using hlen

theorem C10_witness :
    (_convert (encodeStream 2 [⟨3, 0, []⟩, ⟨1, 1, [8, 8, 8]⟩] ++ [4, 4]) none 0).result
      = .ok true ∧
    (_convert (encodeStream 2 [⟨3, 0, []⟩, ⟨1, 1, [8, 8, 8]⟩] ++ [4, 4]) none 0).pages
      = [⟨3, 0, []⟩, ⟨1, 1, [8, 8, 8]⟩] ∧
    (_convert (encodeStream 2 [⟨3, 0, []⟩, ⟨1, 1, [8, 8, 8]⟩] ++ [4, 4])
        none 0).progress.length = 4 :=
  C10_zero_area_page_accepted 3 0 [4, 4] none 0 (by decide) (by decide) (by decide)

/-- C6: the session's reported progress percentage is monotonically
non-decreasing over the sequence of progress calls of one `_convert`
session (on any stream, also a failing one), and on a successful session
the final reported percentage is exactly 100. -/
theorem C6_progress_monotone_final (stream : List Nat) (lang : Option String)
    (ec : Int) :
    List.Chain' (· ≤ ·)
      ((_convert stream lang ec).progress.map ProgressCall.percentage) ∧
    ((_convert stream lang ec).result = .ok true →
      ((_convert stream lang ec).progress.map ProgressCall.percentage).getLast?
        = some 100) := by
  cases h1 : read_int stream with
  | error e =>
    refine ⟨by simp [_convert, h1], fun hok => ?_⟩
    simp [_convert, h1] at hok
  | ok v =>
    obtain ⟨n, s1⟩ := v
    by_cases hn : n = 0
    · refine ⟨by simp [_convert, h1, hn], fun hok => ?_⟩
      simp [_convert, h1, hn] at hok
    · have hppp : 0 ≤ (if lang.isSome then 50 / (n : ℚ) else 100 / (n : ℚ)) := by
        split <;> positivity
      cases herr :
          (convertLoop n (if lang.isSome then 50 / (n : ℚ) else 100 / (n : ℚ)) n 0 s1).err with
      | some e =>
        refine ⟨?_, fun hok => ?_⟩
        · simp only [_convert, h1, if_neg hn, herr]
          exact (convertLoop_chain n _ hppp n 0 s1).tail
        · simp only [_convert, h1, if_neg hn, herr] at hok
          exact absurd hok (by simp)
      | none =>
        obtain ⟨hperc, hlast⟩ := convertLoop_success_perc n _ n 0 s1 herr
        have hchain := convertLoop_chain n _ hppp n 0 s1
        have hn' : ((n : Nat) : ℚ) ≠ 0 := Nat.cast_ne_zero.mpr hn
        have hle100 : (n : ℚ) * (if lang.isSome then 50 / (n : ℚ) else 100 / (n : ℚ)) ≤ 100 := by
          split
          · have : (n : ℚ) * (50 / (n : ℚ)) = 50 := by field_simp
            rw [this]; norm_num
          · have : (n : ℚ) * (100 / (n : ℚ)) = 100 := by field_simp
            rw [this]
        constructor
        · simp only [_convert, h1, if_neg hn, herr, List.map_append, List.map_cons,
            List.map_nil]
          have hsplit :
              (convertLoop n (if lang.isSome then 50 / (n : ℚ) else 100 / (n : ℚ))
                    n 0 s1).progress.map ProgressCall.percentage ++
                  [(convertLoop n (if lang.isSome then 50 / (n : ℚ) else 100 / (n : ℚ))
                    n 0 s1).perc, 100] =
                ((0 : ℚ) :: (convertLoop n (if lang.isSome then 50 / (n : ℚ) else 100 / (n : ℚ))
                    n 0 s1).progress.map ProgressCall.percentage ++
                  [(convertLoop n (if lang.isSome then 50 / (n : ℚ) else 100 / (n : ℚ))
                    n 0 s1).perc, 100]).tail := by
            simp
          rw [hsplit]
          apply List.Chain'.tail
          rw [show ((0 : ℚ) :: (convertLoop n (if lang.isSome then 50 / (n : ℚ)
                  else 100 / (n : ℚ)) n 0 s1).progress.map ProgressCall.percentage ++
                [(convertLoop n (if lang.isSome then 50 / (n : ℚ) else 100 / (n : ℚ))
                  n 0 s1).perc, 100]) =
              (((0 : ℚ) :: (convertLoop n (if lang.isSome then 50 / (n : ℚ)
                  else 100 / (n : ℚ)) n 0 s1).progress.map ProgressCall.percentage) ++
                [(convertLoop n (if lang.isSome then 50 / (n : ℚ) else 100 / (n : ℚ))
                  n 0 s1).perc, 100]) from by simp]
          rw [List.chain'_append]
          refine ⟨hchain, ?_, ?_⟩
          · refine List.Chain'.cons ?_ (List.chain'_singleton 100)
            rw [hperc]
            linarith
          · intro x hx y hy
            rw [hlast] at hx
            simp only [Option.mem_def, Option.some.injEq] at hx
            simp only [List.head?_cons, Option.mem_def, Option.some.injEq] at hy
            rw [← hx, ← hy, hperc]
        · intro _
          simp only [_convert, h1, if_neg hn, herr, List.map_append, List.map_cons,
            List.map_nil]
          rw [show (convertLoop n (if lang.isSome then 50 / (n : ℚ) else 100 / (n : ℚ))
                  n 0 s1).progress.map ProgressCall.percentage ++
                [(convertLoop n (if lang.isSome then 50 / (n : ℚ) else 100 / (n : ℚ))
                  n 0 s1).perc, 100] =
              ((convertLoop n (if lang.isSome then 50 / (n : ℚ) else 100 / (n : ℚ))
                  n 0 s1).progress.map ProgressCall.percentage ++
                [(convertLoop n (if lang.isSome then 50 / (n : ℚ) else 100 / (n : ℚ))
                  n 0 s1).perc]) ++ [100] from by simp]
          exact List.getLast?_concat _

theorem C6_witness :
    ((_convert [0, 1, 0, 1, 0, 1, 5, 6, 7] none 0).progress.map
      ProgressCall.percentage).getLast? = some 100 :=
  (C6_progress_monotone_final [0, 1, 0, 1, 0, 1, 5, 6, 7] none 0).2
    (by simp [_convert, convertLoop, read_int, read_bytes, nonblocking_read, beBytesToNat])

theorem C5_witness :
    (⟨1, 1, [5, 6, 7]⟩ : Page).pixels.length = 1 * 1 * 3 :=
  C5_pagesink_exact [0, 1, 0, 1, 0, 1, 5, 6, 7] none 0 ⟨1, 1, [5, 6, 7]⟩
    (by simp [_convert, convertLoop, read_int, read_bytes, nonblocking_read, beBytesToNat])

/-- C4: across one session, the total wall-clock time spent blocked in
reads stays within the TimeBudget: the initial page-count read is bounded
by the timeout computed from input size plus the fixed startup allowance,
and each of the loop's reads by the remaining time of the budget
recomputed from input size and page count, each read within one
poll-interval tolerance — so the session total is bounded by the two
budgets plus one tolerance per read. -/
theorem C4_total_read_time_bounded (size : ℚ) (n : Nat) (tol d0 : ℚ) (ds : List ℚ)
    (htol : 0 ≤ tol)
    (hd0le : d0 ≤ calculate_timeout size 0 + STARTUP_TIME_SECONDS + tol)
    (hds : ReadsWithinBudget (calculate_timeout size n) tol 0 ds)
    (hsize : 0 ≤ size) :
    d0 + ds.sum
      ≤ (calculate_timeout size 0 + STARTUP_TIME_SECONDS) + calculate_timeout size n
        + (1 + ds.length) * tol := by
  have hsum := readsWithinBudget_sum (calculate_timeout size n) tol htol ds 0 hds
  have hB : 0 ≤ calculate_timeout size n := by
    unfold calculate_timeout
    have hcast : (0 : ℚ) ≤ (n : ℚ) := Nat.cast_nonneg n
    linarith
  rw [show stopwatch_remaining (calculate_timeout size n) 0 = calculate_timeout size n
    from by rw [stopwatch_remaining, sub_zero, max_eq_right hB]] at hsum
  linarith

theorem C4_witness :
    (100 : ℚ) + ([10, 20, 30] : List ℚ).sum
      ≤ (calculate_timeout 2 0 + STARTUP_TIME_SECONDS) + calculate_timeout 2 3
        + (1 + (([10, 20, 30] : List ℚ).length : ℚ)) * 1 :=
  C4_total_read_time_bounded 2 3 1 100 [10, 20, 30] (by norm_num)
    (by norm_num [calculate_timeout, STARTUP_TIME_SECONDS])
    (by norm_num [ReadsWithinBudget, stopwatch_remaining, calculate_timeout])
    (by norm_num)

/-- C8: the exact read either returns a buffer of exactly `size` bytes or
fails with `ShortRead`, never a shorter buffer; and `read_int` is this
2-byte exact read interpreted as an unsigned big-endian integer, so every
value it returns lies below `2 ^ 16 = 65536`. -/
theorem C8_exact_read_and_uint16 (s : List Nat) (size : Nat)
    (hbytes : ∀ b ∈ s, b < 256) :
    (∀ buf rest, read_bytes s size true = .ok (buf, rest) → buf.length = size) ∧
    (s.length < size → read_bytes s size true = .error (.shortRead size s.length)) ∧
    (∀ v rest, read_int s = .ok (v, rest) →
      v = beBytesToNat (s.take 2) ∧ v < 65536) := by
  refine ⟨fun buf rest hok => read_bytes_ok_length hok,
    fun hshort => read_bytes_short hshort, ?_⟩
  intro v rest h
  rcases s with _ | ⟨a, s'⟩
  · simp [read_int, read_bytes, nonblocking_read] at h
  rcases s' with _ | ⟨b, t⟩
  · simp [read_int, read_bytes, nonblocking_read] at h
  have ha : a < 256 := hbytes a (by simp)
  have hb : b < 256 := hbytes b (by simp)
  simp only [read_int, read_bytes, nonblocking_read] at h
  norm_num at h
  obtain ⟨hv, -⟩ := h
  subst hv
  refine ⟨by simp, ?_⟩
  simp [beBytesToNat]
  omega

theorem C8_witness :
    (2 : Nat) = beBytesToNat (([0, 2, 9, 9] : List Nat).take 2) ∧ (2 : Nat) < 65536 :=
  (C8_exact_read_and_uint16 [0, 2, 9, 9] 2 (by decide)).2.2 2 [9, 9] rfl

/-- C9: in a dev-mode session the worker's input stream is a 4-byte
unsigned big-endian length prefix equal to the sidecar blob's byte length,
then the blob, then the document bytes: the first 4 bytes decode to the
blob's length and the bytes after them are exactly `blob ++ doc`. -/
theorem C9_sidecar_framing (blob doc : List Nat) (h : blob.length < 2 ^ 32) :
    (dev_input_stream blob doc).take 4 = to_bytes4 blob.length ∧
    beBytesToNat ((dev_input_stream blob doc).take 4) = blob.length ∧
    (dev_input_stream blob doc).drop 4 = blob ++ doc := by
  have htake : (dev_input_stream blob doc).take 4 = to_bytes4 blob.length := by
    simp [dev_input_stream, teleport_dz_module, to_bytes4]
  have hdrop : (dev_input_stream blob doc).drop 4 = blob ++ doc := by
    simp [dev_input_stream, teleport_dz_module, to_bytes4]
  exact ⟨htake, by rw [htake]; exact beBytesToNat_to_bytes4 h, hdrop⟩

theorem C9_witness :
    dev_input_stream [1, 2, 3, 4, 5, 6, 7, 8, 9, 10] [171]
      = [0, 0, 0, 10] ++ [1, 2, 3, 4, 5, 6, 7, 8, 9, 10] ++ [171] ∧
    beBytesToNat ((dev_input_stream [1, 2, 3, 4, 5, 6, 7, 8, 9, 10] [171]).take 4) = 10 :=
  ⟨by decide,
   (C9_sidecar_framing [1, 2, 3, 4, 5, 6, 7, 8, 9, 10] [171] (by decide)).2.1⟩

end Dangerzone
